import Mathlib

/-!
# Verification of the lineup genetic-algorithm core

Shallow embedding of the genetic-algorithm module of the lineup-coach
service (the TypeScript file exporting `generateOptimisedAssignments`).

Modelling conventions:
* JavaScript numbers that only ever hold integers (preference ranks,
  per-player scores) are embedded as `ℤ`; the fitness ratio, which divides
  an average by a spread, is embedded as `ℚ` (all quantities involved are
  exact ratios of integers, so `ℚ` matches the source arithmetic wherever
  the source value is representable exactly, which it is for the claims
  below).
* Every call to `Math.random()` (which yields a value in `[0, 1)`) is
  modelled by reading the next value of an explicit random source
  `g : ℕ → ℚ` at a running counter `k`; each embedded operation returns
  the advanced counter together with its result, so the sequencing of
  draws matches the source exactly.  Theorems quantify over `g`, i.e.
  over every possible outcome of the internal random draws.
* Out-of-range JavaScript array reads yield `undefined`; they are
  embedded with `List.get?`/`List.getD`.  A JavaScript element write
  `a[i] = v` past the end of an array extends the array; this is embedded
  by `jsSet` below.
-/

namespace LineupCoach

/-- `SimplePlayer` record of the source: display name, ordered list of
preferred position names (most preferred first), and the stable id. -/
structure SimplePlayer where
  name : String
  pref : List String
  id : String
deriving DecidableEq, Repr, Inhabited

/-- A random source: the `n`-th call to `Math.random()` returns `g n`.
Faithful outcomes satisfy `0 ≤ g n < 1`. -/
def RSrc : Type := ℕ → ℚ

/-- `[arr[i], arr[j]] = [arr[j], arr[i]]`: swap two positions of a list,
identity when either index is out of range (in the source both indices
are always in range). -/
def listSwap {α : Type} (l : List α) (i j : ℕ) : List α :=
  match l[i]?, l[j]? with
  | some a, some b => (l.set i b).set j a
  | _, _ => l

/-- The Fisher–Yates loop of `shuffle`: `for (let i = arr.length - 1; i > 0; i--)
{ const j = Math.floor(Math.random() * (i + 1)); swap arr[i] arr[j] }`.
The first argument is the current loop index `i`. -/
def fyLoop {α : Type} (g : RSrc) : ℕ → List α → ℕ → List α × ℕ
  | 0, arr, k => (arr, k)
  | i + 1, arr, k =>
      let j : ℕ := ((g k) * ((i + 2 : ℕ) : ℚ)).floor.toNat
      fyLoop g i (listSwap arr (i + 1) j) (k + 1)

/-- `shuffle`: copies its argument (`array.slice()`) and runs the
Fisher–Yates loop on the copy, returning the shuffled copy.  In this
value-level embedding the copy is the value itself; the store-level
embedding `shuffleStore` below models the copying explicitly. -/
def shuffle {α : Type} (g : RSrc) (array : List α) (k : ℕ) : List α × ℕ :=
  fyLoop g (array.length - 1) array k

/-- `createGame`: builds `periodCount` periods.  The source pushes with
`period.push()` — a call with no argument, which appends nothing — so
every period stays empty. -/
def createGame (periodCount : ℕ) (positions : List String) : List (List SimplePlayer) :=
  (List.range periodCount).map fun _ =>
    (List.range positions.length).foldl (fun period _ => period ++ ([] : List SimplePlayer)) []

/-- The loop of `generateGamePlacementFromShuffle`: for each period, if every
spot is `undefined` (vacuously true for the empty periods `createGame`
produces; the embedded entries are never `undefined`, so the spot test is
`fun _ => false`), replace the period with a shuffle of the players. -/
def placeRounds (g : RSrc) (players : List SimplePlayer) :
    List (List SimplePlayer) → ℕ → List (List SimplePlayer) × ℕ
  | [], k => ([], k)
  | r :: rest, k =>
      let rk : List SimplePlayer × ℕ :=
        if r.all (fun _ => false) then shuffle g players k else (r, k)
      let restk := placeRounds g players rest rk.2
      (rk.1 :: restk.1, restk.2)

/-- `generateGamePlacementFromShuffle`: empty game when the position list is
empty, otherwise one shuffled player list per period. -/
def generateGamePlacementFromShuffle (g : RSrc) (periodCount : ℕ)
    (players : List SimplePlayer) (positions : List String) (k : ℕ) :
    List (List SimplePlayer) × ℕ :=
  if positions.length = 0 then ([], k)
  else placeRounds g players (createGame periodCount positions) k

/-- One player's score: the inner double loop of `sumPlayerScores`.
`indexOf` of the source returns `-1` when the position is absent;
`List.indexOf` returns the length, so the `rankIndex >= 0` guard becomes
a `< length` test. -/
def playerScore (game : List (List SimplePlayer)) (positions : List String)
    (periodCount : ℕ) (player : SimplePlayer) : ℤ :=
  (List.range periodCount).foldl (fun acc i =>
    (List.range positions.length).foldl (fun acc2 j =>
      match (game.getD i [])[j]? with
      | some assigned =>
          if assigned.name = player.name then
            let rankIndex := player.pref.indexOf (positions.getD j "")
            if rankIndex < player.pref.length then
              acc2 + ((positions.length : ℤ) - (rankIndex : ℤ))
            else acc2
          else acc2
      | none => acc2) acc) 0

/-- `sumPlayerScores`: one score per player, in player order. -/
def sumPlayerScores (game : List (List SimplePlayer)) (players : List SimplePlayer)
    (positions : List String) (periodCount : ℕ) : List ℤ :=
  players.map (playerScore game positions periodCount)

/-- `getAveragePlayerScore`: 0 for the empty list, else the mean.
(`reduce((a,b) => a+b, 0)` is the sum.) -/
def getAveragePlayerScore (playerScores : List ℤ) : ℚ :=
  if playerScores.length = 0 then 0
  else ((playerScores.foldl (· + ·) 0 : ℤ) : ℚ) / (playerScores.length : ℚ)

/-- The successive differences of adjacent entries (`sorted[i] - sorted[i+1]`). -/
def adjacentDiffs : List ℤ → List ℤ
  | a :: b :: rest => (a - b) :: adjacentDiffs (b :: rest)
  | _ => []

/-- `getGameScoreDistribution`: sort descending (`sort((a,b) => b-a)`),
take adjacent differences, return 0 when there are none, else their sum
(`diffs.reduce((a,b) => a+b)` sums starting from the first element). -/
def getGameScoreDistribution (playerScores : List ℤ) : ℤ :=
  let sorted := playerScores.insertionSort (· ≥ ·)
  match adjacentDiffs sorted with
  | [] => 0
  | d :: ds => ds.foldl (· + ·) d

/-- `getGameScoreRatio`: average over (distribution + 1). -/
def getGameScoreRatioQ (game : List (List SimplePlayer)) (players : List SimplePlayer)
    (positions : List String) (periodCount : ℕ) : ℚ :=
  let playerScores := sumPlayerScores game players positions periodCount
  let avg := getAveragePlayerScore playerScores
  let distrib := getGameScoreDistribution playerScores
  avg / ((distrib : ℚ) + 1)

/-- `DNA`: a candidate lineup.  `genes` is one player ordering per period;
`players`, `positions`, `periodCount` are the shared context carried by
the object; `fitness` is the cached score. -/
structure DNA where
  genes : List (List SimplePlayer)
  fitness : ℚ
  players : List SimplePlayer
  positions : List String
  periodCount : ℕ
deriving DecidableEq, Repr

instance : Inhabited DNA := ⟨⟨[], 0, [], [], 0⟩⟩

/-- The `DNA` constructor: fresh random genes, fitness 0. -/
def newDNA (g : RSrc) (periodCount : ℕ) (players : List SimplePlayer)
    (positions : List String) (k : ℕ) : DNA × ℕ :=
  let genesk := generateGamePlacementFromShuffle g periodCount players positions k
  (⟨genesk.1, 0, players, positions, periodCount⟩, genesk.2)

/-- `DNA.calcFitness`: store the ratio in the fitness field (the `target`
argument of the source is ignored by its body). -/
def DNA.calcFitness (d : DNA) : DNA :=
  { d with fitness := getGameScoreRatioQ d.genes d.players d.positions d.periodCount }

/-- JavaScript element write `l[i] = v`: in-range writes replace, writes past
the end extend the array (the skipped entries are holes; they are padded
with `pad`, which no reachable call ever needs). -/
def jsSet {α : Type} (l : List α) (i : ℕ) (v : α) (pad : α) : List α :=
  if i < l.length then l.set i v
  else l ++ List.replicate (i - l.length) pad ++ [v]

/-- `DNA.crossover`: build a fresh child (`new DNA(...)`, consuming random
draws for its genes), draw the midpoint, then overwrite the child's periods:
period `i` comes from the receiver (`a`) when `i > midpoint`, else from the
partner (`b`). -/
def DNA.crossover (g : RSrc) (a b : DNA) (k : ℕ) : DNA × ℕ :=
  let childk := newDNA g a.periodCount a.players a.positions k
  let child := childk.1
  let k1 := childk.2
  let midpoint : ℕ := ((g k1) * ((a.genes.length : ℕ) : ℚ)).floor.toNat
  let childGenes := (List.range a.genes.length).foldl
    (fun acc i =>
      if i > midpoint then jsSet acc i (a.genes.getD i []) []
      else jsSet acc i (b.genes.getD i []) []) child.genes
  ({ child with genes := childGenes }, k1 + 1)

/-- The loop of `DNA.mutate`: for each period draw once; below the mutation
rate, replace the period with a fresh shuffle of the players. -/
def mutateRounds (g : RSrc) (players : List SimplePlayer) (mutationRate : ℚ) :
    List (List SimplePlayer) → ℕ → List (List SimplePlayer) × ℕ
  | [], k => ([], k)
  | r :: rest, k =>
      if g k < mutationRate then
        let rk := shuffle g players (k + 1)
        let restk := mutateRounds g players mutationRate rest rk.2
        (rk.1 :: restk.1, restk.2)
      else
        let restk := mutateRounds g players mutationRate rest (k + 1)
        (r :: restk.1, restk.2)

/-- `DNA.mutate`. -/
def DNA.mutate (g : RSrc) (d : DNA) (mutationRate : ℚ) (k : ℕ) : DNA × ℕ :=
  let genesk := mutateRounds g d.players mutationRate d.genes k
  ({ d with genes := genesk.1 }, genesk.2)

/-- `Population`: candidate pool plus evolution bookkeeping. -/
structure Population where
  population : List DNA
  mutationRate : ℚ
  generations : ℕ
  finished : Bool
  target : List (List SimplePlayer)
  best : Option DNA
  perfectScore : ℚ
deriving DecidableEq, Repr

/-- The constructor loop `for (i = 0; i < popMax; i++) population[i] = new DNA(...)`. -/
def mkDNAs (g : RSrc) (periodCount : ℕ) (players : List SimplePlayer)
    (positions : List String) : ℕ → ℕ → List DNA × ℕ
  | 0, k => ([], k)
  | n + 1, k =>
      let dk := newDNA g periodCount players positions k
      let restk := mkDNAs g periodCount players positions n dk.2
      (dk.1 :: restk.1, restk.2)

/-- `Population.calcFitness`: evaluate every individual. -/
def Population.calcFitness (pop : List DNA) : List DNA :=
  pop.map DNA.calcFitness

/-- The `Population` constructor: `popMax` fresh candidates (with
`target.length` periods each), `best = null`, then an initial fitness pass. -/
def mkPopulation (g : RSrc) (target : List (List SimplePlayer)) (mutationRate : ℚ)
    (popMax : ℕ) (players : List SimplePlayer) (positions : List String) (k : ℕ) :
    Population × ℕ :=
  let popk := mkDNAs g target.length players positions popMax k
  (⟨Population.calcFitness popk.1, mutationRate, 0, false, target, none, 8⟩, popk.2)

/-- `let maxFitness = 0; for each individual: if fitness > maxFitness, update`. -/
def popMaxFitness (pop : List DNA) : ℚ :=
  pop.foldl (fun m d => if d.fitness > m then d.fitness else m) 0

/-- The rejection-sampling loop of `acceptReject`, with the remaining
attempt budget as fuel.  Each attempt draws an index and an acceptance
value `r = Math.random() * maxFitness`, accepting when `r < fitness`.
The source's `attempt > 10000` exit fires on the 10001st failed attempt. -/
def acceptRejectLoop (g : RSrc) (pop : List DNA) (maxFitness : ℚ) :
    ℕ → ℕ → Option DNA × ℕ
  | 0, k => (none, k)
  | fuel + 1, k =>
      let index : ℕ := ((g k) * ((pop.length : ℕ) : ℚ)).floor.toNat
      let partner := pop.getD index default
      let r := (g (k + 1)) * maxFitness
      if r < partner.fitness then (some partner, k + 2)
      else acceptRejectLoop g pop maxFitness fuel (k + 2)

/-- `Population.acceptReject`: at most 10001 attempts, then the `null` sentinel. -/
def Population.acceptReject (g : RSrc) (pop : List DNA) (maxFitness : ℚ) (k : ℕ) :
    Option DNA × ℕ :=
  acceptRejectLoop g pop maxFitness 10001 k

/-- The body of one index of the `generate` loop: draw two parents (both
draws always happen, in order); if both succeeded, crossover then mutate;
otherwise fall back to the previous generation's candidate at this index. -/
def generateStep (g : RSrc) (pop : List DNA) (maxFitness mutationRate : ℚ)
    (dold : DNA) (k : ℕ) : DNA × ℕ :=
  let pak := Population.acceptReject g pop maxFitness k
  let pbk := Population.acceptReject g pop maxFitness pak.2
  match pak.1, pbk.1 with
  | some pa, some pb =>
      let childk := DNA.crossover g pa pb pbk.2
      DNA.mutate g childk.1 mutationRate childk.2
  | _, _ => (dold, pbk.2)

/-- The `generate` loop over the indices of the old population (the element
passed along is the old candidate at the current index, used as the
fallback). -/
def generateLoop (g : RSrc) (pop : List DNA) (maxFitness mutationRate : ℚ) :
    List DNA → ℕ → List DNA × ℕ
  | [], k => ([], k)
  | d :: rest, k =>
      let ck := generateStep g pop maxFitness mutationRate d k
      let restk := generateLoop g pop maxFitness mutationRate rest ck.2
      (ck.1 :: restk.1, restk.2)

/-- `Population.generate`: compute the current maximum fitness, build the
new collection, and when it is non-empty install it, bump the generation
counter and re-evaluate all fitnesses. -/
def Population.generate (g : RSrc) (p : Population) (k : ℕ) : Population × ℕ :=
  let maxFitness := popMaxFitness p.population
  let newPopk := generateLoop g p.population maxFitness p.mutationRate p.population k
  if newPopk.1.length > 0 then
    ({ p with population := Population.calcFitness newPopk.1,
              generations := p.generations + 1 }, newPopk.2)
  else (p, newPopk.2)

/-- The scan of `evaluate`: `worldRecord = 0; index = 0;` then keep the
index of the strictly best fitness seen. -/
def scanBest (pop : List DNA) : ℕ × ℚ :=
  pop.enum.foldl
    (fun acc p => if p.2.fitness > acc.2 then (p.1, p.2.fitness) else acc) (0, 0)

/-- `Population.evaluate`: set `best` to the scanned candidate and flip
`finished` when the record reaches `perfectScore`. -/
def Population.evaluate (p : Population) : Population :=
  let iw := scanBest p.population
  { p with best := p.population[iw.1]?,
           finished := if iw.2 ≥ p.perfectScore then true else p.finished }

/-- The generation loop of the entry point: up to the given budget, run
`generate()` then `evaluate()`, stopping early when `finished`. -/
def runGenerations (g : RSrc) : ℕ → Population → ℕ → Population × ℕ
  | 0, p, k => (p, k)
  | n + 1, p, k =>
      let pk := Population.generate g p k
      let p2 := Population.evaluate pk.1
      if p2.finished then (p2, pk.2) else runGenerations g n p2 pk.2

/-- `generateOptimisedAssignments`: the exported entry point.  The output
record is embedded as the ordered list of key/value writes
`assignments[positions[i]] = period[i] ? period[i].id : null`; `null` is
`none`.  The source's constants: population 30, mutation rate 0.1,
generation budget 10; `periodCount` defaults to 1 at the call sites. -/
def generateOptimisedAssignments (g : RSrc) (players : List SimplePlayer)
    (positions : List String) (periodCount : ℕ) (k : ℕ) :
    List (String × Option String) × ℕ :=
  if players.length = 0 ∨ positions.length = 0 then
    (positions.map fun pos => (pos, none), k)
  else
    let target := createGame periodCount positions
    let popk := mkPopulation g target (1 / 10 : ℚ) 30 players positions k
    let fink := runGenerations g 10 popk.1 popk.2
    let best := fink.1.best.getD (fink.1.population.getD 0 default)
    let period := best.genes.getD 0 []
    ((List.range positions.length).map
      (fun i => (positions.getD i "", (period[i]?).map SimplePlayer.id)), fink.2)

/-! ## Specification-side definitions (the words of the claims)

These definitions follow the claim sentences, for comparison with the
source-side definitions above. -/

/-- Claim-side per-participant score: the sum, over every round and every
slot index `j` in `[0, slot-count)`, of `slot-count − r` when the
participant assigned to slot `j` in that round has this participant's
name and the slot's name occurs at rank `r` in the participant's
preference list, and 0 when it does not occur there. -/
def specParticipantScore (game : List (List SimplePlayer)) (positions : List String)
    (periodCount : ℕ) (player : SimplePlayer) : ℤ :=
  ((List.range periodCount).map fun i =>
    ((List.range positions.length).map fun j =>
      match (game.getD i [])[j]? with
      | some assigned =>
          if assigned.name = player.name ∧ positions.getD j "" ∈ player.pref then
            (positions.length : ℤ) - (player.pref.indexOf (positions.getD j "") : ℤ)
          else 0
      | none => 0).sum).sum

/-- Claim-side mean: 0 when the participant list is empty. -/
def specMean (scores : List ℤ) : ℚ :=
  if scores.length = 0 then 0 else ((scores.sum : ℤ) : ℚ) / (scores.length : ℚ)

/-- Claim-side distribution: the closed form `max(scores) − min(scores)`
(0 with zero or one scores). -/
def specDistr (scores : List ℤ) : ℤ :=
  match scores with
  | [] => 0
  | a :: t => t.foldl max a - t.foldl min a

/-- Claim-side fitness: `mean(scores) / (distribution(scores) + 1)`. -/
def specFitness (game : List (List SimplePlayer)) (players : List SimplePlayer)
    (positions : List String) (periodCount : ℕ) : ℚ :=
  let scores := players.map (specParticipantScore game positions periodCount)
  specMean scores / ((specDistr scores : ℚ) + 1)

/-! ## Auxiliary definitions for stating per-index and frame properties -/

/-- The randomness counter at which the `generate` loop body runs for index
`i`: the per-index steps for indices `0 … i−1` are folded over the first
`i` entries of the previous generation. -/
def stepsCounter (g : RSrc) (pop : List DNA) (maxFitness mutationRate : ℚ) :
    List DNA → ℕ → ℕ → ℕ
  | [], _, k => k
  | _ :: _, 0, k => k
  | d :: rest, i + 1, k =>
      stepsCounter g pop maxFitness mutationRate rest i
        (generateStep g pop maxFitness mutationRate d k).2

/-- A heap of JavaScript arrays, for stating frame (non-mutation)
properties: a reference is an index into the store, and an in-place
element write changes only the referenced array. -/
structure Store (α : Type) where
  arrays : List (List α)

/-- Dereference (out-of-range references read as empty, never reached by
valid callers). -/
def readRef {α : Type} (s : Store α) (r : ℕ) : List α := s.arrays.getD r []

/-- Replace the array a reference points at (models in-place mutation of
that array). -/
def writeRef {α : Type} (s : Store α) (r : ℕ) (v : List α) : Store α :=
  ⟨s.arrays.set r v⟩

/-- `array.slice()`: allocate a fresh array holding a copy of the value;
returns the new store and the fresh reference. -/
def allocRef {α : Type} (s : Store α) (v : List α) : Store α × ℕ :=
  (⟨s.arrays ++ [v]⟩, s.arrays.length)

/-- The Fisher–Yates loop of `shuffle` at store level: each iteration
reads the array at `rArr`, swaps two of its entries and writes it back —
only the array at `rArr` is ever written. -/
def fyLoopStore {α : Type} (g : RSrc) (rArr : ℕ) :
    ℕ → Store α → ℕ → Store α × ℕ
  | 0, s, k => (s, k)
  | i + 1, s, k =>
      let j : ℕ := ((g k) * ((i + 2 : ℕ) : ℚ)).floor.toNat
      fyLoopStore g rArr i (writeRef s rArr (listSwap (readRef s rArr) (i + 1) j)) (k + 1)

/-- `shuffle` at store level: `const arr = array.slice()` allocates the
copy, the loop swaps in place on the copy only, and the reference to the
copy is returned (store, result reference, advanced counter). -/
def shuffleStore {α : Type} (g : RSrc) (s : Store α) (rIn : ℕ) (k : ℕ) :
    Store α × ℕ × ℕ :=
  let alloc := allocRef s (readRef s rIn)
  let res := fyLoopStore g alloc.2 ((readRef alloc.1 alloc.2).length - 1) alloc.1 k
  (res.1, alloc.2, res.2)

/-! ## Helper lemmas: folds, telescoping sums, sortedness -/

theorem foldl_add_eq (l : List ℤ) (c : ℤ) : l.foldl (· + ·) c = c + l.sum := by
  induction l generalizing c with
  | nil => simp
  | cons x t ih => rw [List.foldl_cons, ih, List.sum_cons]; ring

theorem foldl_eq_sum_map {β : Type} (h : β → ℤ) :
    ∀ (l : List β) (f : ℤ → β → ℤ), (∀ acc b, f acc b = acc + h b) →
      ∀ c, l.foldl f c = c + (l.map h).sum := by
  intro l
  induction l with
  | nil => intro f hf c; simp
  | cons b u ih => intro f hf c; rw [List.foldl_cons, hf, ih f hf, List.map_cons, List.sum_cons]; ring

theorem foldl_le_of_step {β : Type} (f : ℤ → β → ℤ) :
    ∀ (l : List β) (c : ℤ), (∀ acc b, b ∈ l → acc ≤ f acc b) → c ≤ l.foldl f c := by
  intro l
  induction l with
  | nil => intro c _; exact le_refl c
  | cons b u ih =>
      intro c hstep
      rw [List.foldl_cons]
      exact le_trans (hstep c b (by simp))
        (ih _ (fun acc x hx => hstep acc x (List.mem_cons_of_mem _ hx)))

theorem adjacentDiffs_sum (ys : List ℤ) : ∀ x : ℤ,
    (adjacentDiffs (x :: ys)).sum = x - ((x :: ys).getLast?.getD 0) := by
  induction ys with
  | nil => intro x; simp [adjacentDiffs]
  | cons y t ih =>
      intro x
      rw [show adjacentDiffs (x :: y :: t) = (x - y) :: adjacentDiffs (y :: t) from rfl,
        List.sum_cons, ih y, List.getLast?_cons_cons]
      ring

theorem sorted_ge_head_ub {s : ℤ} {ss : List ℤ} (h : List.Sorted (· ≥ ·) (s :: ss)) :
    ∀ x ∈ s :: ss, x ≤ s := by
  intro x hx
  rcases List.mem_cons.mp hx with rfl | hx2
  · exact le_refl x
  · exact (List.sorted_cons.mp h).1 x hx2

theorem sorted_ge_last_lb : ∀ (xs : List ℤ), List.Sorted (· ≥ ·) xs →
    ∀ x ∈ xs, xs.getLast?.getD 0 ≤ x := by
  intro xs
  induction xs with
  | nil => intro _ x hx; cases hx
  | cons s ss ih =>
      intro h x hx
      cases ss with
      | nil =>
          rw [List.getLast?_singleton]
          have : x = s := by simpa using hx
          simp [this]
      | cons y t =>
          rw [List.getLast?_cons_cons]
          have hs := List.sorted_cons.mp h
          rcases List.mem_cons.mp hx with rfl | hx2
          · exact le_trans (ih hs.2 y (by simp)) (hs.1 y (by simp))
          · exact ih hs.2 x hx2

theorem getGameScoreDistribution_eq_bounds (l : List ℤ) (M m : ℤ)
    (hM : M ∈ l) (hMub : ∀ x ∈ l, x ≤ M) (hm : m ∈ l) (hmlb : ∀ x ∈ l, m ≤ x) :
    getGameScoreDistribution l = M - m := by
  have hperm : (l.insertionSort (· ≥ ·)).Perm l := List.perm_insertionSort _ l
  have hsorted : List.Sorted (· ≥ ·) (l.insertionSort (· ≥ ·)) :=
    List.sorted_insertionSort _ l
  obtain ⟨s, ss, hcons⟩ : ∃ s ss, l.insertionSort (· ≥ ·) = s :: ss := by
    cases hsort : l.insertionSort (· ≥ ·) with
    | nil =>
        exfalso
        have h0 : ([] : List ℤ).Perm l := by rw [← hsort]; exact hperm
        have : l = [] := h0.symm.eq_nil
        rw [this] at hM
        cases hM
    | cons s ss => exact ⟨s, ss, rfl⟩
  rw [hcons] at hperm hsorted
  have hdist : getGameScoreDistribution l = (adjacentDiffs (s :: ss)).sum := by
    unfold getGameScoreDistribution
    rw [hcons]
    cases hd : adjacentDiffs (s :: ss) with
    | nil => simp [hd]
    | cons d ds => simp [hd, foldl_add_eq]
  have hlastmem : (s :: ss).getLast?.getD 0 ∈ s :: ss := by
    have hne : ((s :: ss).getLast?).isSome := by simp
    obtain ⟨a, ha⟩ := Option.isSome_iff_exists.mp hne
    rw [ha, Option.getD_some]
    exact List.mem_of_mem_getLast? (by simp [ha, Option.mem_def])
  have hsM : s = M := by
    have h1 : s ≤ M := hMub s (hperm.mem_iff.mp (by simp))
    have h2 : M ≤ s := sorted_ge_head_ub hsorted M (hperm.mem_iff.mpr hM)
    exact le_antisymm h1 h2
  have hlm : (s :: ss).getLast?.getD 0 = m := by
    have h1 : m ≤ (s :: ss).getLast?.getD 0 := hmlb _ (hperm.mem_iff.mp hlastmem)
    have h2 : (s :: ss).getLast?.getD 0 ≤ m :=
      sorted_ge_last_lb _ hsorted m (hperm.mem_iff.mpr hm)
    exact le_antisymm h2 h1
  rw [hdist, adjacentDiffs_sum, hlm, hsM]

theorem foldl_max_mem (t : List ℤ) : ∀ a : ℤ, t.foldl max a ∈ a :: t := by
  induction t with
  | nil => intro a; simp
  | cons b u ih =>
      intro a
      rw [List.foldl_cons]
      rcases List.mem_cons.mp (ih (max a b)) with h | h
      · rw [h]
        rcases max_choice a b with h2 | h2 <;> rw [h2] <;> simp
      · exact List.mem_cons_of_mem _ (List.mem_cons_of_mem _ h)

theorem le_foldl_max (t : List ℤ) : ∀ (a x : ℤ), x ∈ a :: t → x ≤ t.foldl max a := by
  induction t with
  | nil =>
      intro a x hx
      have hxa : x = a := by simpa using hx
      rw [hxa, List.foldl_nil]
  | cons b u ih =>
      intro a x hx
      rw [List.foldl_cons]
      have hfold : max a b ≤ u.foldl max (max a b) := ih (max a b) (max a b) (by simp)
      rcases List.mem_cons.mp hx with rfl | hx2
      · exact le_trans (le_max_left x b) hfold
      · rcases List.mem_cons.mp hx2 with rfl | hx3
        · exact le_trans (le_max_right a x) hfold
        · exact ih (max a b) x (List.mem_cons_of_mem _ hx3)

theorem foldl_min_mem (t : List ℤ) : ∀ a : ℤ, t.foldl min a ∈ a :: t := by
  induction t with
  | nil => intro a; simp
  | cons b u ih =>
      intro a
      rw [List.foldl_cons]
      rcases List.mem_cons.mp (ih (min a b)) with h | h
      · rw [h]
        rcases min_choice a b with h2 | h2 <;> rw [h2] <;> simp
      · exact List.mem_cons_of_mem _ (List.mem_cons_of_mem _ h)

theorem foldl_min_le (t : List ℤ) : ∀ (a x : ℤ), x ∈ a :: t → t.foldl min a ≤ x := by
  induction t with
  | nil =>
      intro a x hx
      have hxa : x = a := by simpa using hx
      rw [hxa, List.foldl_nil]
  | cons b u ih =>
      intro a x hx
      rw [List.foldl_cons]
      have hfold : u.foldl min (min a b) ≤ min a b := ih (min a b) (min a b) (by simp)
      rcases List.mem_cons.mp hx with rfl | hx2
      · exact le_trans hfold (min_le_left x b)
      · rcases List.mem_cons.mp hx2 with rfl | hx3
        · exact le_trans hfold (min_le_right a x)
        · exact ih (min a b) x (List.mem_cons_of_mem _ hx3)

theorem getGameScoreDistribution_eq_specDistr (l : List ℤ) :
    getGameScoreDistribution l = specDistr l := by
  cases l with
  | nil => rfl
  | cons a t =>
      exact getGameScoreDistribution_eq_bounds (a :: t) (t.foldl max a) (t.foldl min a)
        (foldl_max_mem t a) (fun x hx => le_foldl_max t a x hx)
        (foldl_min_mem t a) (fun x hx => foldl_min_le t a x hx)

theorem getGameScoreDistribution_nonneg (l : List ℤ) :
    0 ≤ getGameScoreDistribution l := by
  rw [getGameScoreDistribution_eq_specDistr]
  cases l with
  | nil => exact le_refl 0
  | cons a t =>
      have h1 : t.foldl min a ≤ a := foldl_min_le t a a (by simp)
      have h2 : a ≤ t.foldl max a := le_foldl_max t a a (by simp)
      simpa [specDistr] using sub_nonneg.mpr (le_trans h1 h2)

theorem playerScore_eq_spec (game : List (List SimplePlayer)) (positions : List String)
    (periodCount : ℕ) (player : SimplePlayer) :
    playerScore game positions periodCount player =
      specParticipantScore game positions periodCount player := by
  unfold playerScore specParticipantScore
  rw [foldl_eq_sum_map
    (fun i => ((List.range positions.length).map fun j =>
      match (game.getD i [])[j]? with
      | some assigned =>
          if assigned.name = player.name ∧ positions.getD j "" ∈ player.pref then
            (positions.length : ℤ) - (player.pref.indexOf (positions.getD j "") : ℤ)
          else 0
      | none => 0).sum)
    (List.range periodCount) _ ?_ 0, zero_add]
  intro acc i
  rw [foldl_eq_sum_map
    (fun j =>
      match (game.getD i [])[j]? with
      | some assigned =>
          if assigned.name = player.name ∧ positions.getD j "" ∈ player.pref then
            (positions.length : ℤ) - (player.pref.indexOf (positions.getD j "") : ℤ)
          else 0
      | none => 0)
    (List.range positions.length) _ ?_ acc]
  intro acc2 j
  simp only [List.getD_eq_getElem?_getD]
  cases hc : (game[i]?.getD ([] : List SimplePlayer))[j]? with
  | none => simp [hc]
  | some assigned =>
      by_cases h1 : assigned.name = player.name
      · by_cases h2 : positions[j]?.getD "" ∈ player.pref
        · have h3 : List.indexOf (positions[j]?.getD "") player.pref < player.pref.length :=
            List.indexOf_lt_length.mpr h2
          simp [h1, h2, h3]
        · have h3 : ¬ List.indexOf (positions[j]?.getD "") player.pref < player.pref.length :=
            fun hc2 => h2 (List.indexOf_lt_length.mp hc2)
          simp [h1, h2, h3]
      · simp [h1]

theorem getAverage_eq_specMean (l : List ℤ) : getAveragePlayerScore l = specMean l := by
  unfold getAveragePlayerScore specMean
  rw [foldl_add_eq, zero_add]

/-! ## Claims C1, C2, C3 -/

/-- C1: for every candidate genome, participant list, slot list and round
count, the fitness evaluator returns `mean(perParticipantScores) /
(distribution(perParticipantScores) + 1)`, where each participant's score
sums, over every round and slot index `j < slot-count`, `slot-count − r`
when the participant assigned to slot `j` has this participant's name and
the slot's name occurs at rank `r` in the participant's preference list
(0 when it does not occur); the mean is 0 when the participant list is
empty. -/
theorem C1_fitness_formula (game : List (List SimplePlayer)) (players : List SimplePlayer)
    (positions : List String) (periodCount : ℕ) :
    getGameScoreRatioQ game players positions periodCount =
      specFitness game players positions periodCount := by
  unfold getGameScoreRatioQ specFitness
  have hscores : sumPlayerScores game players positions periodCount =
      players.map (specParticipantScore game positions periodCount) := by
    unfold sumPlayerScores
    exact List.map_congr_left fun p _ => playerScore_eq_spec game positions periodCount p
  simp only [hscores, getAverage_eq_specMean, getGameScoreDistribution_eq_specDistr]

/-- C2: the distribution penalty (sum of successive pairwise differences
of the descending-sorted scores) equals `max(scores) − min(scores)` for
every non-empty score list, and is 0 for lists with zero or one scores. -/
theorem C2_distribution_closed_form :
    (∀ (l : List ℤ) (M m : ℤ), M ∈ l → (∀ x ∈ l, x ≤ M) → m ∈ l → (∀ x ∈ l, m ≤ x) →
        getGameScoreDistribution l = M - m) ∧
      getGameScoreDistribution [] = 0 ∧ ∀ a : ℤ, getGameScoreDistribution [a] = 0 := by
  refine ⟨getGameScoreDistribution_eq_bounds, rfl, fun a => ?_⟩
  have h := getGameScoreDistribution_eq_bounds [a] a a (by simp) (by simp) (by simp) (by simp)
  simpa using h

/-- Witness for C2 at a concrete score list: max [3, 1, 2] − min [3, 1, 2]. -/
theorem C2_distribution_witness : getGameScoreDistribution [3, 1, 2] = 3 - 1 :=
  C2_distribution_closed_form.1 [3, 1, 2] 3 1 (by decide) (by decide) (by decide) (by decide)

/-- C3 as stated is false: the fitness evaluator can return a negative
value.  One participant whose preference list ranks the single slot `"C"`
at index 2 (≥ slot-count 1) contributes `1 − 2 = −1`, so the fitness is
`−1 < 0`. -/
theorem C3_counterexample :
    getGameScoreRatioQ [[⟨"P", ["A", "B", "C"], "p1"⟩]]
      [⟨"P", ["A", "B", "C"], "p1"⟩] ["C"] 1 < 0 := by
  have hs : sumPlayerScores [[⟨"P", ["A", "B", "C"], "p1"⟩]]
      [⟨"P", ["A", "B", "C"], "p1"⟩] ["C"] 1 = [-1] := by decide
  have hd : getGameScoreDistribution [-1] = 0 := by decide
  unfold getGameScoreRatioQ
  simp only [hs, hd]
  norm_num [getAveragePlayerScore]

/-- C3 amended: the fitness is non-negative for every candidate genome,
participant list, slot list and round count in which every participant
ranks every slot of their preference list at an index at most slot-count
(so no single contribution `slot-count − r` is negative). -/
theorem C3_amended_nonneg (game : List (List SimplePlayer)) (players : List SimplePlayer)
    (positions : List String) (periodCount : ℕ)
    (hp : ∀ p ∈ players, ∀ s ∈ p.pref, (p.pref.indexOf s : ℤ) ≤ (positions.length : ℤ)) :
    0 ≤ getGameScoreRatioQ game players positions periodCount := by
  unfold getGameScoreRatioQ
  have hscore : ∀ p ∈ players, 0 ≤ playerScore game positions periodCount p := by
    intro p hpmem
    unfold playerScore
    refine foldl_le_of_step _ _ _ (fun acc i _ => ?_)
    refine foldl_le_of_step _ _ _ (fun acc2 j _ => ?_)
    simp only [List.getD_eq_getElem?_getD]
    cases hc : (game[i]?.getD ([] : List SimplePlayer))[j]? with
    | none => simp [hc]
    | some assigned =>
        by_cases h1 : assigned.name = p.name
        · by_cases h3 : List.indexOf (positions[j]?.getD "") p.pref < p.pref.length
          · have hmem : positions[j]?.getD "" ∈ p.pref := List.indexOf_lt_length.mp h3
            have hr : (List.indexOf (positions[j]?.getD "") p.pref : ℤ) ≤ (positions.length : ℤ) :=
              hp p hpmem _ hmem
            simp only [hc, h1, if_true, h3, if_true]
            omega
          · simp [hc, h1, h3]
        · simp [hc, h1]
  have havg : 0 ≤ getAveragePlayerScore (sumPlayerScores game players positions periodCount) := by
    rw [getAverage_eq_specMean]
    unfold specMean
    split
    · exact le_refl 0
    · refine div_nonneg ?_ (by positivity)
      have hsum : (0 : ℤ) ≤ (sumPlayerScores game players positions periodCount).sum := by
        refine List.sum_nonneg fun x hx => ?_
        unfold sumPlayerScores at hx
        obtain ⟨p, hpmem, rfl⟩ := List.mem_map.mp hx
        exact hscore p hpmem
      exact_mod_cast hsum
  have hden : (0 : ℚ) ≤ ((getGameScoreDistribution
      (sumPlayerScores game players positions periodCount) : ℤ) : ℚ) + 1 := by
    have := getGameScoreDistribution_nonneg (sumPlayerScores game players positions periodCount)
    have h0 : (0 : ℚ) ≤ ((getGameScoreDistribution
        (sumPlayerScores game players positions periodCount) : ℤ) : ℚ) := by exact_mod_cast this
    linarith
  exact div_nonneg havg hden

/-- Witness for the amended C3: a participant placed on their top-ranked
single slot; all hypotheses hold and the fitness is non-negative. -/
theorem C3_amended_witness :
    (∀ p ∈ [(⟨"P", ["A"], "p1"⟩ : SimplePlayer)], ∀ s ∈ p.pref,
        (p.pref.indexOf s : ℤ) ≤ ((["A"] : List String).length : ℤ)) ∧
      0 ≤ getGameScoreRatioQ [[⟨"P", ["A"], "p1"⟩]] [⟨"P", ["A"], "p1"⟩] ["A"] 1 :=
  ⟨by decide, C3_amended_nonneg _ _ _ _ (by decide)⟩

/-! ## Permutation invariants of the genome -/

theorem set_getElem_eq_self {α : Type} :
    ∀ (l : List α) (i : ℕ) (h : i < l.length), l.set i l[i] = l := by
  intro l
  induction l with
  | nil => intro i h; cases h
  | cons x xs ih =>
      intro i h
      cases i with
      | zero => rfl
      | succ k =>
          rw [List.getElem_cons_succ, List.set_cons_succ, ih k (by simpa using h)]

theorem cons_set_perm {α : Type} :
    ∀ (l : List α) (m : ℕ) (hm : m < l.length) (y : α),
      (l[m] :: l.set m y).Perm (y :: l) := by
  intro l
  induction l with
  | nil => intro m hm; cases hm
  | cons x xs ih =>
      intro m hm y
      cases m with
      | zero =>
          rw [List.getElem_cons_zero, List.set_cons_zero]
          exact List.Perm.swap y x xs
      | succ k =>
          rw [List.getElem_cons_succ, List.set_cons_succ]
          have hk : k < xs.length := by simpa using hm
          have h1 : (xs[k] :: x :: xs.set k y).Perm (x :: xs[k] :: xs.set k y) :=
            List.Perm.swap x (xs[k]) (xs.set k y)
          have h2 : (x :: xs[k] :: xs.set k y).Perm (x :: y :: xs) :=
            List.Perm.cons x (ih k hk y)
          exact (h1.trans h2).trans (List.Perm.swap y x xs)

theorem set_set_perm {α : Type} :
    ∀ (l : List α) (i j : ℕ), i ≠ j → ∀ (hi : i < l.length) (hj : j < l.length),
      ((l.set i l[j]).set j l[i]).Perm l := by
  intro l
  induction l with
  | nil => intro i j _ hi; cases hi
  | cons x xs ih =>
      intro i j hne hi hj
      cases i with
      | zero =>
          cases j with
          | zero => exact absurd rfl hne
          | succ m =>
              rw [List.getElem_cons_zero, List.getElem_cons_succ, List.set_cons_zero,
                List.set_cons_succ]
              exact cons_set_perm xs m (by simpa using hj) x
      | succ k =>
          cases j with
          | zero =>
              rw [List.getElem_cons_zero, List.getElem_cons_succ, List.set_cons_succ,
                List.set_cons_zero]
              exact cons_set_perm xs k (by simpa using hi) x
          | succ m =>
              rw [List.getElem_cons_succ, List.getElem_cons_succ, List.set_cons_succ,
                List.set_cons_succ]
              exact List.Perm.cons x
                (ih k m (fun h => hne (by rw [h])) (by simpa using hi) (by simpa using hj))

theorem listSwap_perm {α : Type} (l : List α) (i j : ℕ) : (listSwap l i j).Perm l := by
  unfold listSwap
  cases hi : l[i]? with
  | none => exact List.Perm.refl l
  | some a =>
      cases hj : l[j]? with
      | none => exact List.Perm.refl l
      | some b =>
          obtain ⟨hilt, hieq⟩ := List.getElem?_eq_some.mp hi
          obtain ⟨hjlt, hjeq⟩ := List.getElem?_eq_some.mp hj
          by_cases hij : i = j
          · subst hij
            have hab : a = b := by rw [← hieq, ← hjeq]
            subst hab
            show ((l.set i a).set i a).Perm l
            rw [List.set_set, ← hieq, set_getElem_eq_self l i hilt]
          · show ((l.set i b).set j a).Perm l
            rw [← hieq, ← hjeq]
            exact set_set_perm l i j hij hilt hjlt

theorem fyLoop_perm {α : Type} (g : RSrc) :
    ∀ (i : ℕ) (arr : List α) (k : ℕ), ((fyLoop g i arr k).1).Perm arr := by
  intro i
  induction i with
  | zero => intro arr k; exact List.Perm.refl arr
  | succ n ih =>
      intro arr k
      exact (ih (listSwap arr (n + 1) ((g k * (((n + 2 : ℕ) : ℚ))).floor.toNat)) (k + 1)).trans
        (listSwap_perm arr (n + 1) _)

theorem shuffle_perm {α : Type} (g : RSrc) (arr : List α) (k : ℕ) :
    ((shuffle g arr k).1).Perm arr :=
  fyLoop_perm g (arr.length - 1) arr k

theorem createGame_eq (periodCount : ℕ) (positions : List String) :
    createGame periodCount positions = List.replicate periodCount [] := by
  unfold createGame
  have h : ∀ (l : List ℕ) (acc : List SimplePlayer),
      l.foldl (fun period _ => period ++ ([] : List SimplePlayer)) acc = acc := by
    intro l
    induction l with
    | nil => intro acc; rfl
    | cons x t iht => intro acc; rw [List.foldl_cons, List.append_nil, iht]
  calc (List.range periodCount).map
        (fun _ => (List.range positions.length).foldl
          (fun period _ => period ++ ([] : List SimplePlayer)) [])
      = (List.range periodCount).map (Function.const ℕ []) := by
        refine List.map_congr_left fun x _ => h _ []
    _ = List.replicate periodCount [] := by rw [List.map_const, List.length_range]

theorem placeRounds_of_empty (g : RSrc) (players : List SimplePlayer) :
    ∀ (rounds : List (List SimplePlayer)) (k : ℕ), (∀ r ∈ rounds, r = []) →
      ((placeRounds g players rounds k).1.length = rounds.length ∧
        ∀ r ∈ (placeRounds g players rounds k).1, r.Perm players) := by
  intro rounds
  induction rounds with
  | nil => intro k _; exact ⟨rfl, fun r hr => absurd hr (List.not_mem_nil r)⟩
  | cons r0 rest ih =>
      intro k hall
      have hr0 : r0 = [] := hall r0 (by simp)
      subst hr0
      have hrest := ih (shuffle g players k).2 (fun r hr => hall r (List.mem_cons_of_mem _ hr))
      constructor
      · simpa [placeRounds] using hrest.1
      · intro r hr
        simp only [placeRounds, List.all_nil, if_pos] at hr
        rcases List.mem_cons.mp hr with rfl | hr2
        · exact shuffle_perm g players k
        · exact hrest.2 r hr2

/-- The genes produced by the candidate constructor for a non-empty
position list: `periodCount` periods, each a permutation of the players. -/
theorem generateGamePlacementFromShuffle_ok (g : RSrc) (periodCount : ℕ)
    (players : List SimplePlayer) (positions : List String) (k : ℕ)
    (hpos : positions ≠ []) :
    (generateGamePlacementFromShuffle g periodCount players positions k).1.length = periodCount ∧
      ∀ r ∈ (generateGamePlacementFromShuffle g periodCount players positions k).1,
        r.Perm players := by
  unfold generateGamePlacementFromShuffle
  rw [if_neg (by simpa using hpos), createGame_eq]
  have h := placeRounds_of_empty g players (List.replicate periodCount []) k
    (fun r hr => List.eq_of_mem_replicate hr)
  exact ⟨by rw [h.1, List.length_replicate], h.2⟩

/-- Invariant carried by every candidate during a run: the candidate holds
the engine's context, has one period per round, and each period is a
permutation of the full player list. -/
def DNAOK (players : List SimplePlayer) (positions : List String) (periodCount : ℕ)
    (d : DNA) : Prop :=
  d.players = players ∧ d.positions = positions ∧ d.periodCount = periodCount ∧
    d.genes.length = periodCount ∧ ∀ r ∈ d.genes, r.Perm players

theorem newDNA_ok (g : RSrc) (players : List SimplePlayer) (positions : List String)
    (periodCount k : ℕ) (hpos : positions ≠ []) :
    DNAOK players positions periodCount (newDNA g periodCount players positions k).1 := by
  have h := generateGamePlacementFromShuffle_ok g periodCount players positions k hpos
  exact ⟨rfl, rfl, rfl, h.1, h.2⟩

theorem jsSet_of_lt {α : Type} (l : List α) (i : ℕ) (v pad : α) (h : i < l.length) :
    jsSet l i v pad = l.set i v := by
  unfold jsSet
  rw [if_pos h]

theorem foldl_jsSet_all (players : List SimplePlayer) (pick : ℕ → List SimplePlayer) :
    ∀ (idxs : List ℕ) (acc : List (List SimplePlayer)),
      (∀ i ∈ idxs, (pick i).Perm players) → (∀ i ∈ idxs, i < acc.length) →
      (∀ r ∈ acc, r.Perm players) →
      ((idxs.foldl (fun a i => jsSet a i (pick i) []) acc).length = acc.length ∧
        ∀ r ∈ idxs.foldl (fun a i => jsSet a i (pick i) []) acc, r.Perm players) := by
  intro idxs
  induction idxs with
  | nil => intro acc _ _ hacc; exact ⟨rfl, hacc⟩
  | cons i rest ih =>
      intro acc hpick hbound hacc
      rw [List.foldl_cons, jsSet_of_lt _ _ _ _ (hbound i (by simp))]
      have hlen : (acc.set i (pick i)).length = acc.length := List.length_set acc i (pick i)
      have h := ih (acc.set i (pick i))
        (fun x hx => hpick x (List.mem_cons_of_mem _ hx))
        (fun x hx => by rw [hlen]; exact hbound x (List.mem_cons_of_mem _ hx))
        (fun r hr => by
          rcases List.mem_or_eq_of_mem_set hr with hr2 | rfl
          · exact hacc r hr2
          · exact hpick i (by simp))
      exact ⟨h.1.trans hlen, h.2⟩

theorem getD_perm_of_all {players : List SimplePlayer} {l : List (List SimplePlayer)}
    (hall : ∀ r ∈ l, r.Perm players) {i : ℕ} (h : i < l.length) :
    (l.getD i []).Perm players := by
  rw [List.getD_eq_getElem?_getD, List.getElem?_eq_getElem h, Option.getD_some]
  exact hall _ (List.getElem_mem h)

theorem crossover_ok {players : List SimplePlayer} {positions : List String}
    {periodCount : ℕ} (g : RSrc) (a b : DNA) (k : ℕ) (hpos : positions ≠ [])
    (ha : DNAOK players positions periodCount a) (hb : DNAOK players positions periodCount b) :
    DNAOK players positions periodCount (DNA.crossover g a b k).1 := by
  obtain ⟨hap, hapos, hapc, halen, haperm⟩ := ha
  obtain ⟨hbp, hbpos, hbpc, hblen, hbperm⟩ := hb
  have hchild : DNAOK players positions periodCount
      (newDNA g a.periodCount a.players a.positions k).1 := by
    rw [hap, hapos, hapc]
    exact newDNA_ok g players positions periodCount k hpos
  obtain ⟨hcp, hcpos, hcpc, hclen, hcperm⟩ := hchild
  have hfold := foldl_jsSet_all players
    (fun i => if i > ((g (newDNA g a.periodCount a.players a.positions k).2) *
        ((a.genes.length : ℕ) : ℚ)).floor.toNat
      then a.genes.getD i [] else b.genes.getD i [])
    (List.range a.genes.length)
    (newDNA g a.periodCount a.players a.positions k).1.genes
    (fun i hi => by
      have hilt : i < a.genes.length := List.mem_range.mp hi
      by_cases hmid : i > ((g (newDNA g a.periodCount a.players a.positions k).2) *
          ((a.genes.length : ℕ) : ℚ)).floor.toNat
      · simpa [hmid] using getD_perm_of_all haperm hilt
      · simpa [hmid] using getD_perm_of_all hbperm
          (show i < b.genes.length by rw [hblen, ← halen]; exact hilt))
    (fun i hi => by
      rw [hclen, ← halen]
      exact List.mem_range.mp hi)
    hcperm
  have hext : (List.range a.genes.length).foldl
      (fun acc i =>
        if i > ((g (newDNA g a.periodCount a.players a.positions k).2) *
            ((a.genes.length : ℕ) : ℚ)).floor.toNat
        then jsSet acc i (a.genes.getD i []) [] else jsSet acc i (b.genes.getD i []) [])
      (newDNA g a.periodCount a.players a.positions k).1.genes =
    (List.range a.genes.length).foldl
      (fun acc i => jsSet acc i
        (if i > ((g (newDNA g a.periodCount a.players a.positions k).2) *
            ((a.genes.length : ℕ) : ℚ)).floor.toNat
          then a.genes.getD i [] else b.genes.getD i []) [])
      (newDNA g a.periodCount a.players a.positions k).1.genes := by
    refine List.foldl_ext _ _ _ (fun acc i _ => ?_)
    split <;> rfl
  unfold DNA.crossover
  refine ⟨hcp, hcpos, hcpc, ?_, ?_⟩
  · dsimp only
    rw [hext, hfold.1]
    exact hclen
  · dsimp only
    rw [hext]
    exact hfold.2

theorem mutateRounds_ok (g : RSrc) (players : List SimplePlayer) (rate : ℚ) :
    ∀ (rounds : List (List SimplePlayer)) (k : ℕ), (∀ r ∈ rounds, r.Perm players) →
      ((mutateRounds g players rate rounds k).1.length = rounds.length ∧
        ∀ r ∈ (mutateRounds g players rate rounds k).1, r.Perm players) := by
  intro rounds
  induction rounds with
  | nil => intro k _; exact ⟨rfl, by simp [mutateRounds]⟩
  | cons r0 rest ih =>
      intro k hall
      unfold mutateRounds
      split
      · have h := ih (shuffle g players (k + 1)).2
          (fun r hr => hall r (List.mem_cons_of_mem _ hr))
        refine ⟨by simpa using h.1, fun r hr => ?_⟩
        rcases List.mem_cons.mp hr with rfl | hr2
        · exact shuffle_perm g players (k + 1)
        · exact h.2 r hr2
      · have h := ih (k + 1) (fun r hr => hall r (List.mem_cons_of_mem _ hr))
        refine ⟨by simpa using h.1, fun r hr => ?_⟩
        rcases List.mem_cons.mp hr with rfl | hr2
        · exact hall r (by simp)
        · exact h.2 r hr2

theorem mutate_ok {players : List SimplePlayer} {positions : List String}
    {periodCount : ℕ} (g : RSrc) (d : DNA) (rate : ℚ) (k : ℕ)
    (hd : DNAOK players positions periodCount d) :
    DNAOK players positions periodCount (DNA.mutate g d rate k).1 := by
  obtain ⟨hp, hpos, hpc, hlen, hperm⟩ := hd
  unfold DNA.mutate
  dsimp only
  rw [hp, hpos, hpc]
  have h := mutateRounds_ok g players rate d.genes k hperm
  exact ⟨rfl, rfl, rfl, h.1.trans (hpc ▸ hlen), h.2⟩

theorem calcFitness_ok {players : List SimplePlayer} {positions : List String}
    {periodCount : ℕ} (d : DNA) (hd : DNAOK players positions periodCount d) :
    DNAOK players positions periodCount (DNA.calcFitness d) := hd

theorem acceptRejectLoop_mem (g : RSrc) (pop : List DNA) (maxFitness : ℚ)
    (hg : ∀ n, 0 ≤ g n ∧ g n < 1) (hne : pop ≠ []) :
    ∀ (fuel k : ℕ) (d : DNA), (acceptRejectLoop g pop maxFitness fuel k).1 = some d →
      d ∈ pop := by
  intro fuel
  induction fuel with
  | zero => intro k d h; exact absurd h (by simp [acceptRejectLoop])
  | succ n ih =>
      intro k d h
      have hlen : 0 < pop.length := List.length_pos.mpr hne
      have hidx : ((g k * ((pop.length : ℕ) : ℚ)).floor.toNat) < pop.length := by
        have h0 : (0 : ℚ) ≤ g k := (hg k).1
        have h1 : g k < 1 := (hg k).2
        have hmul : g k * ((pop.length : ℕ) : ℚ) < ((pop.length : ℕ) : ℚ) := by
          have : (0 : ℚ) < ((pop.length : ℕ) : ℚ) := by exact_mod_cast hlen
          calc g k * ((pop.length : ℕ) : ℚ) < 1 * ((pop.length : ℕ) : ℚ) := by
                exact mul_lt_mul_of_pos_right h1 this
            _ = ((pop.length : ℕ) : ℚ) := one_mul _
        have hflr : (g k * ((pop.length : ℕ) : ℚ)).floor = ⌊g k * ((pop.length : ℕ) : ℚ)⌋ := rfl
        have hfl : (g k * ((pop.length : ℕ) : ℚ)).floor < (pop.length : ℤ) := by
          rw [hflr, Int.floor_lt]
          exact_mod_cast hmul
        have hfl0 : 0 ≤ (g k * ((pop.length : ℕ) : ℚ)).floor := by
          rw [hflr]
          apply Int.floor_nonneg.mpr
          positivity
        omega
      unfold acceptRejectLoop at h
      dsimp only at h
      split at h
      · have hd : d = pop.getD ((g k * ((pop.length : ℕ) : ℚ)).floor.toNat) default := by
          simpa using h.symm
        rw [hd, List.getD_eq_getElem?_getD, List.getElem?_eq_getElem hidx, Option.getD_some]
        exact List.getElem_mem hidx
      · exact ih (k + 2) d h

theorem acceptReject_mem (g : RSrc) (pop : List DNA) (maxFitness : ℚ) (k : ℕ) (d : DNA)
    (hg : ∀ n, 0 ≤ g n ∧ g n < 1) (hne : pop ≠ [])
    (h : (Population.acceptReject g pop maxFitness k).1 = some d) : d ∈ pop :=
  acceptRejectLoop_mem g pop maxFitness hg hne 10001 k d h

/-- Invariant of a whole population: non-empty, every candidate `DNAOK`,
and any recorded best candidate `DNAOK`. -/
def PopInv (players : List SimplePlayer) (positions : List String) (periodCount : ℕ)
    (p : Population) : Prop :=
  p.population ≠ [] ∧ (∀ d ∈ p.population, DNAOK players positions periodCount d) ∧
    ∀ b, p.best = some b → DNAOK players positions periodCount b

theorem generateStep_ok {players : List SimplePlayer} {positions : List String}
    {periodCount : ℕ} (g : RSrc) (pop : List DNA) (maxF rate : ℚ) (dold : DNA) (k : ℕ)
    (hg : ∀ n, 0 ≤ g n ∧ g n < 1) (hpos : positions ≠ []) (hne : pop ≠ [])
    (hall : ∀ d ∈ pop, DNAOK players positions periodCount d)
    (hold : DNAOK players positions periodCount dold) :
    DNAOK players positions periodCount (generateStep g pop maxF rate dold k).1 := by
  unfold generateStep
  dsimp only
  cases hpa : (Population.acceptReject g pop maxF k).1 with
  | none =>
      cases hpb : (Population.acceptReject g pop maxF
          (Population.acceptReject g pop maxF k).2).1 with
      | none => exact hold
      | some pb => exact hold
  | some pa =>
      cases hpb : (Population.acceptReject g pop maxF
          (Population.acceptReject g pop maxF k).2).1 with
      | none => exact hold
      | some pb =>
          have hpaOK := hall pa (acceptReject_mem g pop maxF k pa hg hne hpa)
          have hpbOK := hall pb
            (acceptReject_mem g pop maxF (Population.acceptReject g pop maxF k).2 pb hg hne hpb)
          exact mutate_ok g _ rate _ (crossover_ok g pa pb _ hpos hpaOK hpbOK)

theorem generateLoop_ok {players : List SimplePlayer} {positions : List String}
    {periodCount : ℕ} (g : RSrc) (pop : List DNA) (maxF rate : ℚ)
    (hg : ∀ n, 0 ≤ g n ∧ g n < 1) (hpos : positions ≠ []) (hne : pop ≠ [])
    (hall : ∀ d ∈ pop, DNAOK players positions periodCount d) :
    ∀ (old : List DNA) (k : ℕ), (∀ d ∈ old, DNAOK players positions periodCount d) →
      ((generateLoop g pop maxF rate old k).1.length = old.length ∧
        ∀ d ∈ (generateLoop g pop maxF rate old k).1,
          DNAOK players positions periodCount d) := by
  intro old
  induction old with
  | nil => intro k _; exact ⟨rfl, by simp [generateLoop]⟩
  | cons d0 rest ih =>
      intro k hold
      have hstep := generateStep_ok g pop maxF rate d0 k hg hpos hne hall (hold d0 (by simp))
      have hrest := ih (generateStep g pop maxF rate d0 k).2
        (fun d hd => hold d (List.mem_cons_of_mem _ hd))
      refine ⟨by simpa [generateLoop] using hrest.1, fun d hd => ?_⟩
      simp only [generateLoop] at hd
      rcases List.mem_cons.mp hd with rfl | hd2
      · exact hstep
      · exact hrest.2 d hd2

theorem generate_ok {players : List SimplePlayer} {positions : List String}
    {periodCount : ℕ} (g : RSrc) (p : Population) (k : ℕ)
    (hg : ∀ n, 0 ≤ g n ∧ g n < 1) (hpos : positions ≠ [])
    (hinv : PopInv players positions periodCount p) :
    PopInv players positions periodCount (Population.generate g p k).1 := by
  obtain ⟨hne, hall, hbest⟩ := hinv
  have hloop := generateLoop_ok g p.population (popMaxFitness p.population) p.mutationRate
    hg hpos hne hall p.population k hall
  unfold Population.generate
  dsimp only
  split
  · refine ⟨?_, ?_, ?_⟩
    · intro hcontra
      dsimp only at hcontra
      have hlen0 := congrArg List.length hcontra
      rw [Population.calcFitness, List.length_map, hloop.1, List.length_nil] at hlen0
      exact hne (List.length_eq_zero.mp hlen0)
    · intro d hd
      obtain ⟨d0, hd0, rfl⟩ := List.mem_map.mp hd
      exact calcFitness_ok d0 (hloop.2 d0 hd0)
    · exact hbest
  · exact ⟨hne, hall, hbest⟩

theorem evaluate_best_mem (p : Population) (b : DNA)
    (h : (Population.evaluate p).best = some b) : b ∈ p.population := by
  unfold Population.evaluate at h
  dsimp only at h
  obtain ⟨hlt, heq⟩ := List.getElem?_eq_some.mp h
  rw [← heq]
  exact List.getElem_mem hlt

theorem evaluate_ok {players : List SimplePlayer} {positions : List String}
    {periodCount : ℕ} (p : Population)
    (hinv : PopInv players positions periodCount p) :
    PopInv players positions periodCount (Population.evaluate p) := by
  obtain ⟨hne, hall, _⟩ := hinv
  exact ⟨hne, hall, fun b hb => hall b (evaluate_best_mem p b hb)⟩

theorem runGenerations_ok {players : List SimplePlayer} {positions : List String}
    {periodCount : ℕ} (g : RSrc)
    (hg : ∀ n, 0 ≤ g n ∧ g n < 1) (hpos : positions ≠ []) :
    ∀ (fuel : ℕ) (p : Population) (k : ℕ), PopInv players positions periodCount p →
      PopInv players positions periodCount (runGenerations g fuel p k).1 := by
  intro fuel
  induction fuel with
  | zero => intro p k h; exact h
  | succ n ih =>
      intro p k h
      have h1 := generate_ok g p k hg hpos h
      have h2 := evaluate_ok _ h1
      unfold runGenerations
      dsimp only
      split
      · exact h2
      · exact ih _ _ h2

theorem mkDNAs_ok (g : RSrc) (players : List SimplePlayer) (positions : List String)
    (periodCount : ℕ) (hpos : positions ≠ []) :
    ∀ (n k : ℕ), (mkDNAs g periodCount players positions n k).1.length = n ∧
      ∀ d ∈ (mkDNAs g periodCount players positions n k).1,
        DNAOK players positions periodCount d := by
  intro n
  induction n with
  | zero => intro k; exact ⟨rfl, by simp [mkDNAs]⟩
  | succ m ih =>
      intro k
      have hrest := ih (newDNA g periodCount players positions k).2
      refine ⟨by simpa [mkDNAs] using hrest.1, fun d hd => ?_⟩
      simp only [mkDNAs] at hd
      rcases List.mem_cons.mp hd with rfl | hd2
      · exact newDNA_ok g players positions periodCount k hpos
      · exact hrest.2 d hd2

theorem mkPopulation_ok (g : RSrc) (target : List (List SimplePlayer)) (rate : ℚ)
    (popMax : ℕ) (players : List SimplePlayer) (positions : List String) (k : ℕ)
    (hpos : positions ≠ []) (hpop : 0 < popMax) :
    PopInv players positions target.length
      (mkPopulation g target rate popMax players positions k).1 := by
  have hdnas := mkDNAs_ok g players positions target.length hpos popMax k
  unfold mkPopulation
  dsimp only
  refine ⟨?_, ?_, ?_⟩
  · intro hcontra
    dsimp only at hcontra
    have hlen0 := congrArg List.length hcontra
    rw [Population.calcFitness, List.length_map, hdnas.1, List.length_nil] at hlen0
    omega
  · intro d hd
    obtain ⟨d0, hd0, rfl⟩ := List.mem_map.mp hd
    exact calcFitness_ok d0 (hdnas.2 d0 hd0)
  · intro b hb
    exact absurd hb (by simp)

theorem filterMap_assignment (period : List SimplePlayer) (f : ℕ → String) :
    ∀ n : ℕ,
      ((List.range n).map (fun i => (f i, (period[i]?).map SimplePlayer.id))).filterMap
          Prod.snd =
        (period.take n).map SimplePlayer.id := by
  intro n
  induction n with
  | zero => rfl
  | succ m ih =>
      rw [List.range_succ, List.map_append, List.filterMap_append, ih, List.take_succ,
        List.map_append]
      congr 1
      cases hpm : period[m]? with
      | none => simp [hpm]
      | some p => simp [hpm]

/-! ## Claims C4, C5, C7 -/

/-- C7: every candidate in the population, at every generation of a run
started by the entry point against a non-empty slot list, has every round
entry of its genes a permutation of the full participant list (never
truncated to slot count); this survives every crossover and mutation. -/
theorem C7_rounds_permutation (g : RSrc) (players : List SimplePlayer)
    (positions : List String) (periodCount popMax fuel k : ℕ) (mutationRate : ℚ)
    (d : DNA) (r : List SimplePlayer)
    (hg : ∀ n, 0 ≤ g n ∧ g n < 1) (hpos : positions ≠ [])
    (hd : d ∈ (runGenerations g fuel
        (mkPopulation g (createGame periodCount positions) mutationRate popMax
          players positions k).1
        (mkPopulation g (createGame periodCount positions) mutationRate popMax
          players positions k).2).1.population)
    (hr : r ∈ d.genes) : r.Perm players := by
  cases hpop : popMax with
  | zero =>
      exfalso
      -- with popMax = 0 the population starts empty and stays empty while
      -- membership is asserted: derive the invariant for the 0-or-more case
      -- directly from the run on the empty population
      subst hpop
      have hempty : (mkPopulation g (createGame periodCount positions) mutationRate 0
          players positions k).1.population = [] := rfl
      -- an empty population propagates through every generation
      have hstay : ∀ (fuel2 : ℕ) (p : Population) (k2 : ℕ), p.population = [] →
          (runGenerations g fuel2 p k2).1.population = [] := by
        intro fuel2
        induction fuel2 with
        | zero => intro p k2 h; exact h
        | succ n ih =>
            intro p k2 h
            have hgen : (Population.generate g p k2).1 = p := by
              unfold Population.generate
              rw [h]
              rfl
            have heval : (Population.evaluate (Population.generate g p k2).1).population
                = p.population := by rw [hgen]; rfl
            unfold runGenerations
            dsimp only
            split
            · rw [heval, h]
            · rw [ih _ _ (heval.trans h)]
      rw [hstay fuel _ _ hempty] at hd
      exact absurd hd (List.not_mem_nil d)
  | succ m =>
      subst hpop
      have htlen : (createGame periodCount positions).length = periodCount := by
        rw [createGame_eq, List.length_replicate]
      have hinit := mkPopulation_ok g (createGame periodCount positions) mutationRate
        (m + 1) players positions k hpos (Nat.succ_pos m)
      rw [htlen] at hinit
      have hfin := runGenerations_ok g hg hpos fuel _
        (mkPopulation g (createGame periodCount positions) mutationRate (m + 1)
          players positions k).2 hinit
      obtain ⟨-, -, -, -, hall⟩ := hfin.2.1 d hd
      exact hall r hr

/-- Witness for C7: a one-player, one-slot, one-candidate run; the single
round of the single candidate is a permutation of the player list. -/
theorem C7_witness :
    (∀ n : ℕ, (0 : ℚ) ≤ (fun _ : ℕ => (0 : ℚ)) n ∧ (fun _ : ℕ => (0 : ℚ)) n < 1) ∧
      (["A"] : List String) ≠ [] ∧
      ([(⟨"P1", ["A"], "p1"⟩ : SimplePlayer)] : List SimplePlayer).Perm
        [⟨"P1", ["A"], "p1"⟩] := by
  refine ⟨fun n => by norm_num, by decide, ?_⟩
  exact C7_rounds_permutation (fun _ => (0 : ℚ)) [⟨"P1", ["A"], "p1"⟩] ["A"] 1 1 0 0 0
    (DNA.calcFitness ⟨[[⟨"P1", ["A"], "p1"⟩]], 0, [⟨"P1", ["A"], "p1"⟩], ["A"], 1⟩)
    [⟨"P1", ["A"], "p1"⟩]
    (fun n => by norm_num) (by decide)
    (List.mem_singleton.mpr rfl) (List.mem_singleton.mpr rfl)

/-- C5: with exactly one round in both parents (round-count 1), the
crossover child's genes are wholly the partner's genes, for every outcome
of the random cut-point draw (the cut `m ≥ 0` never satisfies `0 > m`). -/
theorem C5_crossover_single_round (g : RSrc) (a b : DNA) (k : ℕ)
    (ha : a.genes.length = 1) (hapc : a.periodCount = 1) (hb : b.genes.length = 1) :
    ((DNA.crossover g a b k).1).genes = b.genes := by
  obtain ⟨r0, hr0⟩ := List.length_eq_one.mp hb
  have hchildlen : (newDNA g a.periodCount a.players a.positions k).1.genes.length ≤ 1 := by
    unfold newDNA generateGamePlacementFromShuffle
    dsimp only
    split
    · exact Nat.zero_le 1
    · rw [createGame_eq]
      have h := (placeRounds_of_empty g a.players (List.replicate a.periodCount []) k
        (fun r hr => List.eq_of_mem_replicate hr)).1
      rw [h, List.length_replicate, hapc]
  have hjs : ∀ (l : List (List SimplePlayer)), l.length ≤ 1 →
      jsSet l 0 r0 [] = [r0] := by
    intro l hl
    cases l with
    | nil => rfl
    | cons x xs =>
        cases xs with
        | nil => rfl
        | cons y ys => simp at hl
  unfold DNA.crossover
  dsimp only
  rw [ha]
  show (List.range 1).foldl _ _ = b.genes
  rw [show List.range 1 = [0] from rfl, List.foldl_cons, List.foldl_nil,
    if_neg (by exact Nat.not_lt_zero _), hr0]
  show jsSet _ 0 ((r0 :: []).getD 0 []) [] = r0 :: []
  rw [show (r0 :: []).getD 0 [] = r0 from rfl, hjs _ hchildlen]

/-- Witness for C5 at concrete single-round parents. -/
theorem C5_witness :
    ((⟨[[⟨"X", [], "x"⟩]], 0, [⟨"X", [], "x"⟩], ["A"], 1⟩ : DNA)).genes.length = 1 ∧
      ((⟨[[⟨"X", [], "x"⟩]], 0, [⟨"X", [], "x"⟩], ["A"], 1⟩ : DNA)).periodCount = 1 ∧
      ((⟨[[⟨"Y", [], "y"⟩]], 0, [⟨"Y", [], "y"⟩], ["A"], 1⟩ : DNA)).genes.length = 1 ∧
      ((DNA.crossover (fun _ => (0 : ℚ))
          ⟨[[⟨"X", [], "x"⟩]], 0, [⟨"X", [], "x"⟩], ["A"], 1⟩
          ⟨[[⟨"Y", [], "y"⟩]], 0, [⟨"Y", [], "y"⟩], ["A"], 1⟩ 0).1).genes =
        (⟨[[⟨"Y", [], "y"⟩]], 0, [⟨"Y", [], "y"⟩], ["A"], 1⟩ : DNA).genes :=
  ⟨rfl, rfl, rfl,
    C5_crossover_single_round (fun _ => (0 : ℚ)) _ _ 0 rfl rfl rfl⟩

/-- C4: for every outcome of the internal random draws, with non-empty
participant and slot lists (distinct slot names, distinct participant
ids), the output has one entry per slot, exactly
`min participant-count slot-count` entries carry a participant id (so all
slots are assigned when participants ≥ slots, and exactly
participant-count when participants < slots, the rest unassigned), and no
participant id occurs twice. -/
theorem C4_entry_assignment_counts (g : RSrc) (players : List SimplePlayer)
    (positions : List String) (periodCount k : ℕ)
    (hg : ∀ n, 0 ≤ g n ∧ g n < 1)
    (hplayers : players ≠ []) (hpos : positions ≠ [])
    (hposnd : positions.Nodup) (hids : (players.map SimplePlayer.id).Nodup)
    (hpc : 0 < periodCount) :
    (generateOptimisedAssignments g players positions periodCount k).1.length =
        positions.length ∧
      ((generateOptimisedAssignments g players positions periodCount k).1.filterMap
          Prod.snd).length = min players.length positions.length ∧
      ((generateOptimisedAssignments g players positions periodCount k).1.filterMap
          Prod.snd).Nodup := by
  unfold generateOptimisedAssignments
  rw [if_neg (by simp [List.length_eq_zero, hplayers, hpos])]
  dsimp only
  have htlen : (createGame periodCount positions).length = periodCount := by
    rw [createGame_eq, List.length_replicate]
  have hinit := mkPopulation_ok g (createGame periodCount positions) (1 / 10 : ℚ) 30
    players positions k hpos (by norm_num)
  rw [htlen] at hinit
  have hfin := runGenerations_ok g hg hpos 10 _
    (mkPopulation g (createGame periodCount positions) (1 / 10 : ℚ) 30
      players positions k).2 hinit
  have hbest : DNAOK players positions periodCount
      ((runGenerations g 10
          (mkPopulation g (createGame periodCount positions) (1 / 10 : ℚ) 30
            players positions k).1
          (mkPopulation g (createGame periodCount positions) (1 / 10 : ℚ) 30
            players positions k).2).1.best.getD
        ((runGenerations g 10
          (mkPopulation g (createGame periodCount positions) (1 / 10 : ℚ) 30
            players positions k).1
          (mkPopulation g (createGame periodCount positions) (1 / 10 : ℚ) 30
            players positions k).2).1.population.getD 0 default)) := by
    cases hb : (runGenerations g 10
        (mkPopulation g (createGame periodCount positions) (1 / 10 : ℚ) 30
          players positions k).1
        (mkPopulation g (createGame periodCount positions) (1 / 10 : ℚ) 30
          players positions k).2).1.best with
    | some b => rw [Option.getD_some]; exact hfin.2.2 b hb
    | none =>
        rw [Option.getD_none]
        have hlen0 := List.length_pos.mpr hfin.1
        rw [List.getD_eq_getElem?_getD, List.getElem?_eq_getElem hlen0, Option.getD_some]
        exact hfin.2.1 _ (List.getElem_mem hlen0)
  obtain ⟨-, -, -, hblen, hball⟩ := hbest
  have hperiod : (((runGenerations g 10
      (mkPopulation g (createGame periodCount positions) (1 / 10 : ℚ) 30
        players positions k).1
      (mkPopulation g (createGame periodCount positions) (1 / 10 : ℚ) 30
        players positions k).2).1.best.getD
      ((runGenerations g 10
        (mkPopulation g (createGame periodCount positions) (1 / 10 : ℚ) 30
          players positions k).1
        (mkPopulation g (createGame periodCount positions) (1 / 10 : ℚ) 30
          players positions k).2).1.population.getD 0 default)).genes.getD 0 []).Perm
      players := by
    have h0 : 0 < ((runGenerations g 10
        (mkPopulation g (createGame periodCount positions) (1 / 10 : ℚ) 30
          players positions k).1
        (mkPopulation g (createGame periodCount positions) (1 / 10 : ℚ) 30
          players positions k).2).1.best.getD
        ((runGenerations g 10
          (mkPopulation g (createGame periodCount positions) (1 / 10 : ℚ) 30
            players positions k).1
          (mkPopulation g (createGame periodCount positions) (1 / 10 : ℚ) 30
            players positions k).2).1.population.getD 0 default)).genes.length := by
      rw [hblen]; exact hpc
    rw [List.getD_eq_getElem?_getD, List.getElem?_eq_getElem h0, Option.getD_some]
    exact hball _ (List.getElem_mem h0)
  refine ⟨by simp, ?_, ?_⟩
  · rw [filterMap_assignment, List.length_map, List.length_take, hperiod.length_eq]
    exact min_comm _ _
  · rw [filterMap_assignment]
    have hpermids := (List.Perm.map SimplePlayer.id hperiod).nodup_iff.mpr hids
    refine List.Nodup.sublist ?_ hpermids
    exact List.Sublist.map _ (List.take_sublist _ _)

/-- Witness for C4: three participants, two slots; two entries assigned,
values distinct. -/
theorem C4_witness :
    ((["S1", "S2"] : List String)).Nodup ∧
      (([(⟨"P1", ["S1"], "p1"⟩ : SimplePlayer), ⟨"P2", ["S2"], "p2"⟩,
          ⟨"P3", ["S1"], "p3"⟩].map SimplePlayer.id)).Nodup ∧
      (generateOptimisedAssignments (fun _ => (0 : ℚ))
          [⟨"P1", ["S1"], "p1"⟩, ⟨"P2", ["S2"], "p2"⟩, ⟨"P3", ["S1"], "p3"⟩]
          ["S1", "S2"] 1 0).1.length = (["S1", "S2"] : List String).length ∧
      ((generateOptimisedAssignments (fun _ => (0 : ℚ))
          [⟨"P1", ["S1"], "p1"⟩, ⟨"P2", ["S2"], "p2"⟩, ⟨"P3", ["S1"], "p3"⟩]
          ["S1", "S2"] 1 0).1.filterMap Prod.snd).length =
        min ([(⟨"P1", ["S1"], "p1"⟩ : SimplePlayer), ⟨"P2", ["S2"], "p2"⟩,
          ⟨"P3", ["S1"], "p3"⟩].length) (["S1", "S2"] : List String).length ∧
      ((generateOptimisedAssignments (fun _ => (0 : ℚ))
          [⟨"P1", ["S1"], "p1"⟩, ⟨"P2", ["S2"], "p2"⟩, ⟨"P3", ["S1"], "p3"⟩]
          ["S1", "S2"] 1 0).1.filterMap Prod.snd).Nodup := by
  refine ⟨by decide, by decide, ?_⟩
  have h := C4_entry_assignment_counts (fun _ => (0 : ℚ))
    [⟨"P1", ["S1"], "p1"⟩, ⟨"P2", ["S2"], "p2"⟩, ⟨"P3", ["S1"], "p3"⟩]
    ["S1", "S2"] 1 0 (fun n => by norm_num) (by decide) (by decide) (by decide)
    (by decide) (by norm_num)
  exact h

/-! ## Claims C6, C8, C10 -/

/-- C6: with an empty participant list or an empty slot list the entry
point maps every input slot name to the unassigned marker and performs no
search: the random counter comes back unchanged, so not a single random
draw is made — no population is constructed and no generation is run. -/
theorem C6_empty_early_return (g : RSrc) (players : List SimplePlayer)
    (positions : List String) (periodCount k : ℕ)
    (h : players = [] ∨ positions = []) :
    generateOptimisedAssignments g players positions periodCount k =
      (positions.map fun pos => (pos, none), k) := by
  unfold generateOptimisedAssignments
  have hc : players.length = 0 ∨ positions.length = 0 := by
    rcases h with rfl | rfl
    · exact Or.inl rfl
    · exact Or.inr rfl
  rw [if_pos hc]

/-- Witness for C6: scenario C of the specification, participants `[]`,
slots `[X, Y]`. -/
theorem C6_witness :
    (([] : List SimplePlayer) = [] ∨ (["X", "Y"] : List String) = []) ∧
      generateOptimisedAssignments (fun _ => (0 : ℚ)) [] ["X", "Y"] 1 5 =
        ([("X", (none : Option String)), ("Y", none)], 5) :=
  ⟨Or.inl rfl, by
    have h := C6_empty_early_return (fun _ => (0 : ℚ)) [] ["X", "Y"] 1 5 (Or.inl rfl)
    simpa using h⟩

theorem generateStep_fallback (g : RSrc) (pop : List DNA) (maxFitness mutationRate : ℚ)
    (dold : DNA) (k : ℕ)
    (h : (Population.acceptReject g pop maxFitness k).1 = none ∨
      (Population.acceptReject g pop maxFitness
        (Population.acceptReject g pop maxFitness k).2).1 = none) :
    (generateStep g pop maxFitness mutationRate dold k).1 = dold := by
  unfold generateStep
  dsimp only
  rcases h with h | h
  · rw [h]
  · rw [h]
    cases (Population.acceptReject g pop maxFitness k).1 <;> rfl

theorem generateLoop_length (g : RSrc) (pop : List DNA) (maxFitness mutationRate : ℚ) :
    ∀ (old : List DNA) (k : ℕ),
      (generateLoop g pop maxFitness mutationRate old k).1.length = old.length := by
  intro old
  induction old with
  | nil => intro k; rfl
  | cons d0 rest ih =>
      intro k
      simpa [generateLoop] using ih (generateStep g pop maxFitness mutationRate d0 k).2

theorem generateLoop_getElem (g : RSrc) (pop : List DNA) (maxFitness mutationRate : ℚ) :
    ∀ (old : List DNA) (i k : ℕ) (d : DNA), old[i]? = some d →
      (generateLoop g pop maxFitness mutationRate old k).1[i]? =
        some ((generateStep g pop maxFitness mutationRate d
          (stepsCounter g pop maxFitness mutationRate old i k)).1) := by
  intro old
  induction old with
  | nil => intro i k d h; simp at h
  | cons d0 rest ih =>
      intro i k d h
      cases i with
      | zero =>
          have hd : d0 = d := by simpa using h
          subst hd
          simp [generateLoop, stepsCounter]
      | succ m =>
          have h2 : rest[m]? = some d := by simpa using h
          simpa [generateLoop, stepsCounter] using
            ih m (generateStep g pop maxFitness mutationRate d0 k).2 d h2

/-- C8: in the collection-building loop of a generation step, at every
index `i`, if either of the two parent draws made for that index returns
the no-selection sentinel, the new collection's entry at index `i` is the
previous generation's candidate at that same index, and the loop still
returns a full collection of the same length (the step completes, no
error path exists).  `Population.generate` then installs exactly this
collection (followed by the usual fitness pass over it). -/
theorem C8_selection_fallback (g : RSrc) (pop : List DNA) (maxFitness mutationRate : ℚ)
    (old : List DNA) (i k : ℕ) (d : DNA)
    (hd : old[i]? = some d)
    (hfail : (Population.acceptReject g pop maxFitness
          (stepsCounter g pop maxFitness mutationRate old i k)).1 = none ∨
        (Population.acceptReject g pop maxFitness
          (Population.acceptReject g pop maxFitness
            (stepsCounter g pop maxFitness mutationRate old i k)).2).1 = none) :
    (generateLoop g pop maxFitness mutationRate old k).1[i]? = some d ∧
      (generateLoop g pop maxFitness mutationRate old k).1.length = old.length := by
  refine ⟨?_, generateLoop_length g pop maxFitness mutationRate old k⟩
  rw [generateLoop_getElem g pop maxFitness mutationRate old i k d hd,
    generateStep_fallback g pop maxFitness mutationRate d _ hfail]

theorem acceptRejectLoop_none_of_nonpos (g : RSrc) (pop : List DNA)
    (hall : ∀ d ∈ pop, d.fitness ≤ 0) :
    ∀ (fuel k : ℕ), (acceptRejectLoop g pop 0 fuel k).1 = none := by
  intro fuel
  induction fuel with
  | zero => intro k; rfl
  | succ n ih =>
      intro k
      unfold acceptRejectLoop
      dsimp only
      rw [mul_zero]
      have hpartner :
          (pop.getD ((g k * ((pop.length : ℕ) : ℚ)).floor.toNat) default).fitness ≤ 0 := by
        by_cases hlt : ((g k * ((pop.length : ℕ) : ℚ)).floor.toNat) < pop.length
        · rw [List.getD_eq_getElem?_getD, List.getElem?_eq_getElem hlt, Option.getD_some]
          exact hall _ (List.getElem_mem hlt)
        · rw [List.getD_eq_getElem?_getD, List.getElem?_eq_none (le_of_not_lt hlt),
            Option.getD_none]
          exact le_refl 0
      rw [if_neg (not_lt.mpr hpartner)]
      exact ih (k + 2)

theorem acceptReject_none_of_nonpos (g : RSrc) (pop : List DNA) (k : ℕ)
    (hall : ∀ d ∈ pop, d.fitness ≤ 0) :
    (Population.acceptReject g pop 0 k).1 = none :=
  acceptRejectLoop_none_of_nonpos g pop hall 10001 k

/-- Witness for C8: an empty selection pool (all draws reject, the cap is
exhausted) and a one-candidate previous generation; index 0 keeps the old
candidate. -/
theorem C8_witness :
    (([(default : DNA)] : List DNA))[0]? = some default ∧
      (generateLoop (fun _ => (0 : ℚ)) [] 0 0 [default] 0).1[0]? = some default ∧
      (generateLoop (fun _ => (0 : ℚ)) [] 0 0 [default] 0).1.length =
        ([(default : DNA)] : List DNA).length := by
  refine ⟨rfl, ?_⟩
  have h := C8_selection_fallback (fun _ => (0 : ℚ)) [] 0 0 [default] 0 0 default rfl
    (Or.inl (acceptReject_none_of_nonpos (fun _ => (0 : ℚ)) [] _
      (fun d hd => absurd hd (List.not_mem_nil d))))
  exact h

theorem popMaxFitness_eq_zero (pop : List DNA) (hnp : ∀ d ∈ pop, d.fitness ≤ 0) :
    popMaxFitness pop = 0 := by
  unfold popMaxFitness
  induction pop with
  | nil => rfl
  | cons d t ih =>
      rw [List.foldl_cons, if_neg (not_lt.mpr (hnp d (by simp)))]
      exact ih (fun x hx => hnp x (List.mem_cons_of_mem _ hx))

theorem generateLoop_id_of_none (g : RSrc) (pop : List DNA) (mutationRate : ℚ)
    (hsel : ∀ kr, (Population.acceptReject g pop 0 kr).1 = none) :
    ∀ (old : List DNA) (k : ℕ), (generateLoop g pop 0 mutationRate old k).1 = old := by
  intro old
  induction old with
  | nil => intro k; rfl
  | cons d0 rest ih =>
      intro k
      have hstep : (generateStep g pop 0 mutationRate d0 k).1 = d0 :=
        generateStep_fallback g pop 0 mutationRate d0 k (Or.inl (hsel k))
      simp [generateLoop, hstep, ih]

/-- C10: when every candidate's fitness is at most 0 (and equals the value
the fitness pass would recompute, as holds after every fitness pass), the
maximum computed at the start of the generation step is 0, every
rejection-sampling draw returns the sentinel (for any random outcomes, as
the drawn threshold is `u·0 = 0` and acceptance needs a strictly greater
fitness), the candidate collection is element-wise identical after the
step, and the generation counter still increments. -/
theorem C10_degenerate_generation (g : RSrc) (p : Population) (k kr : ℕ)
    (hne : p.population ≠ [])
    (hcal : ∀ d ∈ p.population,
      d.fitness = getGameScoreRatioQ d.genes d.players d.positions d.periodCount)
    (hnp : ∀ d ∈ p.population, d.fitness ≤ 0) :
    popMaxFitness p.population = 0 ∧
      (Population.acceptReject g p.population (popMaxFitness p.population) kr).1 = none ∧
      (Population.generate g p k).1.population = p.population ∧
      (Population.generate g p k).1.generations = p.generations + 1 := by
  have hmax : popMaxFitness p.population = 0 := popMaxFitness_eq_zero p.population hnp
  have hmapid : Population.calcFitness p.population = p.population := by
    unfold Population.calcFitness
    conv_rhs => rw [← List.map_id p.population]
    refine List.map_congr_left fun d hd => ?_
    unfold DNA.calcFitness
    rw [← hcal d hd]
    rfl
  have hsel : ∀ kr2, (Population.acceptReject g p.population 0 kr2).1 = none :=
    fun kr2 => acceptReject_none_of_nonpos g p.population kr2 hnp
  have hloop : (generateLoop g p.population 0 p.mutationRate p.population k).1 =
      p.population := generateLoop_id_of_none g p.population p.mutationRate hsel p.population k
  refine ⟨hmax, by rw [hmax]; exact hsel kr, ?_, ?_⟩
  · unfold Population.generate
    dsimp only
    rw [hmax, hloop, if_pos (List.length_pos.mpr hne)]
    exact hmapid
  · unfold Population.generate
    dsimp only
    rw [hmax, hloop, if_pos (List.length_pos.mpr hne)]

/-- Witness for C10: a single degenerate candidate with empty genes and
context; its fitness 0 equals its recomputation and is non-positive. -/
theorem C10_witness :
    ((⟨[(default : DNA)], 1 / 10, 3, false, [], none, 8⟩ : Population).population ≠ []) ∧
      popMaxFitness (⟨[(default : DNA)], 1 / 10, 3, false, [], none, 8⟩ :
        Population).population = 0 ∧
      (Population.acceptReject (fun _ => (0 : ℚ))
        (⟨[(default : DNA)], 1 / 10, 3, false, [], none, 8⟩ : Population).population
        (popMaxFitness (⟨[(default : DNA)], 1 / 10, 3, false, [], none, 8⟩ :
          Population).population) 7).1 = none ∧
      (Population.generate (fun _ => (0 : ℚ))
        (⟨[(default : DNA)], 1 / 10, 3, false, [], none, 8⟩ : Population) 0).1.population =
        (⟨[(default : DNA)], 1 / 10, 3, false, [], none, 8⟩ : Population).population ∧
      (Population.generate (fun _ => (0 : ℚ))
        (⟨[(default : DNA)], 1 / 10, 3, false, [], none, 8⟩ : Population) 0).1.generations =
        (⟨[(default : DNA)], 1 / 10, 3, false, [], none, 8⟩ : Population).generations + 1 := by
  have hcal : ∀ d ∈ [(default : DNA)],
      d.fitness = getGameScoreRatioQ d.genes d.players d.positions d.periodCount := by
    intro d hd
    rw [List.mem_singleton.mp hd]
    show (0 : ℚ) = getGameScoreRatioQ [] [] [] 0
    simp [getGameScoreRatioQ, sumPlayerScores, getAveragePlayerScore,
      getGameScoreDistribution, adjacentDiffs]
  have hnp : ∀ d ∈ [(default : DNA)], d.fitness ≤ 0 := by
    intro d hd
    rw [List.mem_singleton.mp hd]
    exact le_refl 0
  have h := C10_degenerate_generation (fun _ => (0 : ℚ))
    ⟨[(default : DNA)], 1 / 10, 3, false, [], none, 8⟩ 0 7 (by simp) hcal hnp
  exact ⟨by simp, h.1, h.2.1, h.2.2.1, h.2.2.2⟩

/-! ## Claim C9 -/

theorem readRef_write_ne {α : Type} (s : Store α) (rA r : ℕ) (v : List α) (h : r ≠ rA) :
    readRef (writeRef s rA v) r = readRef s r := by
  unfold readRef writeRef
  dsimp only
  rw [List.getD_eq_getElem?_getD, List.getD_eq_getElem?_getD,
    List.getElem?_set_ne (fun hc => h hc.symm)]

theorem readRef_write_self {α : Type} (s : Store α) (rA : ℕ) (v : List α)
    (h : rA < s.arrays.length) : readRef (writeRef s rA v) rA = v := by
  unfold readRef writeRef
  dsimp only
  rw [List.getD_eq_getElem?_getD, List.getElem?_set_eq_of_lt _ h, Option.getD_some]

theorem writeRef_oob {α : Type} (s : Store α) (rA : ℕ) (v : List α)
    (h : s.arrays.length ≤ rA) : writeRef s rA v = s := by
  unfold writeRef
  rw [List.set_eq_of_length_le h]

theorem readRef_alloc_old {α : Type} (s : Store α) (v : List α) (r : ℕ)
    (h : r < s.arrays.length) : readRef (allocRef s v).1 r = readRef s r := by
  unfold readRef allocRef
  dsimp only
  rw [List.getD_eq_getElem?_getD, List.getD_eq_getElem?_getD, List.getElem?_append,
    if_pos h]

theorem readRef_alloc_new {α : Type} (s : Store α) (v : List α) :
    readRef (allocRef s v).1 (allocRef s v).2 = v := by
  unfold readRef allocRef
  dsimp only
  rw [List.getD_eq_getElem?_getD, List.getElem?_concat_length, Option.getD_some]

theorem fyLoopStore_frame {α : Type} (g : RSrc) (rArr : ℕ) :
    ∀ (i : ℕ) (s : Store α) (k r : ℕ), r ≠ rArr →
      readRef (fyLoopStore g rArr i s k).1 r = readRef s r := by
  intro i
  induction i with
  | zero => intro s k r _; rfl
  | succ n ih =>
      intro s k r hr
      exact (ih _ (k + 1) r hr).trans (readRef_write_ne s rArr r _ hr)

theorem fyLoopStore_cell {α : Type} (g : RSrc) (rArr : ℕ) :
    ∀ (i : ℕ) (s : Store α) (k : ℕ),
      (readRef (fyLoopStore g rArr i s k).1 rArr).Perm (readRef s rArr) := by
  intro i
  induction i with
  | zero => intro s k; exact List.Perm.refl _
  | succ n ih =>
      intro s k
      have htail := ih (writeRef s rArr (listSwap (readRef s rArr) (n + 1)
        ((g k * ((n + 2 : ℕ) : ℚ)).floor.toNat))) (k + 1)
      by_cases hlt : rArr < s.arrays.length
      · have hw := readRef_write_self s rArr (listSwap (readRef s rArr) (n + 1)
          ((g k * ((n + 2 : ℕ) : ℚ)).floor.toNat)) hlt
        rw [hw] at htail
        exact htail.trans (listSwap_perm _ _ _)
      · have hw := writeRef_oob s rArr (listSwap (readRef s rArr) (n + 1)
          ((g k * ((n + 2 : ℕ) : ℚ)).floor.toNat)) (le_of_not_lt hlt)
        have hre : readRef (writeRef s rArr (listSwap (readRef s rArr) (n + 1)
            ((g k * ((n + 2 : ℕ) : ℚ)).floor.toNat))) rArr = readRef s rArr := by rw [hw]
        rw [hre] at htail
        exact htail

/-- C9: the shuffle used for genome construction and mutation copies its
input array (`array.slice()`) and swaps only the copy: after a store-level
shuffle, every pre-existing array of the store — the caller's participant
list, each preference list, the slot list — reads back unchanged, and the
returned fresh array is a permutation (a fresh ordering) of the input.
Since these are the only array writes the engine performs, the entry
point leaves the caller-supplied collections element-wise unchanged after
any call, and hence after two identical calls; in this value-level
embedding `generateOptimisedAssignments` reads its arguments and cannot
write to them. -/
theorem C9_shuffle_no_mutation {α : Type} (g : RSrc) (s : Store α) (rIn r k : ℕ)
    (hrIn : rIn < s.arrays.length) (hr : r < s.arrays.length) :
    readRef (shuffleStore g s rIn k).1 r = readRef s r ∧
      (readRef (shuffleStore g s rIn k).1 (shuffleStore g s rIn k).2.1).Perm
        (readRef s rIn) := by
  unfold shuffleStore
  dsimp only
  constructor
  · have h1 := fyLoopStore_frame g (allocRef s (readRef s rIn)).2
      ((readRef (allocRef s (readRef s rIn)).1 (allocRef s (readRef s rIn)).2).length - 1)
      (allocRef s (readRef s rIn)).1 k r (show r ≠ s.arrays.length by omega)
    exact h1.trans (readRef_alloc_old s _ r hr)
  · have h2 := fyLoopStore_cell g (allocRef s (readRef s rIn)).2
      ((readRef (allocRef s (readRef s rIn)).1 (allocRef s (readRef s rIn)).2).length - 1)
      (allocRef s (readRef s rIn)).1 k
    rw [readRef_alloc_new] at h2
    rw [readRef_alloc_new]
    exact h2

/-- Witness for C9 on a two-array store. -/
theorem C9_witness :
    ((⟨[[1, 2, 3], [4, 5]]⟩ : Store ℤ).arrays.length > 1) ∧
      readRef (shuffleStore (fun _ => (0 : ℚ)) (⟨[[1, 2, 3], [4, 5]]⟩ : Store ℤ) 0 0).1 1 =
        readRef (⟨[[1, 2, 3], [4, 5]]⟩ : Store ℤ) 1 ∧
      (readRef (shuffleStore (fun _ => (0 : ℚ)) (⟨[[1, 2, 3], [4, 5]]⟩ : Store ℤ) 0 0).1
        (shuffleStore (fun _ => (0 : ℚ)) (⟨[[1, 2, 3], [4, 5]]⟩ : Store ℤ) 0 0).2.1).Perm
        (readRef (⟨[[1, 2, 3], [4, 5]]⟩ : Store ℤ) 0) := by
  refine ⟨by norm_num, ?_, ?_⟩
  · exact (C9_shuffle_no_mutation (fun _ => (0 : ℚ)) ⟨[[1, 2, 3], [4, 5]]⟩ 0 1 0
      (by norm_num) (by norm_num)).1
  · exact (C9_shuffle_no_mutation (fun _ => (0 : ℚ)) ⟨[[1, 2, 3], [4, 5]]⟩ 0 1 0
      (by norm_num) (by norm_num)).2

end LineupCoach
